import Mathlib

/-!
Verification development for the link-hunting engine of this repository
(include/gemmi/linkhunt.hpp).  The engine itself is embedded from the source
file.  Its collaborators (geometric primitives, the model containers, the
spatial-index marks, the chemistry dictionary and the residue-info lookup)
live in headers that are not part of this tree; those are modelled from the
specification and are marked as such in their doc comments.  Real-valued
quantities are embedded as exact rationals; the only square root in the
engine (the reported bond length) is taken at the statement level over ℝ.
-/

namespace Gemmi

/-- Modelled from the spec: a 3D position in orthogonal Angstrom coordinates
(spec section 3, "Position"); exact rationals stand in for doubles. -/
structure Position where
  x : ℚ
  y : ℚ
  z : ℚ
deriving DecidableEq, Repr, Inhabited

/-- Modelled from the spec: squared Euclidean distance, the sum of squared
coordinate differences (spec 4.1, squared_distance). -/
def distSq (a b : Position) : ℚ :=
  (a.x - b.x) ^ 2 + (a.y - b.y) ^ 2 + (a.z - b.z) ^ 2

/-- Modelled from the spec: signed chiral volume, the scalar triple product of
(p2-p1, p3-p1, p4-p1) (spec 4.1, chiral_volume); stands for
calculate_chiral_volume of calculate.hpp, which is not in this tree. -/
def calculate_chiral_volume (p1 p2 p3 p4 : Position) : ℚ :=
  let ax := p2.x - p1.x
  let ay := p2.y - p1.y
  let az := p2.z - p1.z
  let bx := p3.x - p1.x
  let by_ := p3.y - p1.y
  let bz := p3.z - p1.z
  let cx := p4.x - p1.x
  let cy := p4.y - p1.y
  let cz := p4.z - p1.z
  ax * (by_ * cz - bz * cy) - ay * (bx * cz - bz * cx) + az * (bx * cy - by_ * cx)

/-- Modelled from the spec: an element reduced to the one field the engine
reads, its covalent radius (elem.hpp is not in this tree). -/
structure Element where
  covalent_r : ℚ
deriving DecidableEq, Repr, Inhabited

/-- Modelled from the spec: an atom with the fields used by the search
(spec section 3, "Atom"); altloc none stands for the null character. -/
structure Atom where
  name : String
  altloc : Option Char
  element : Element
  pos : Position
deriving DecidableEq, Repr, Inhabited

/-- Modelled from the spec: a residue as a named list of atoms. -/
structure Residue where
  name : String
  atoms : List Atom
deriving DecidableEq, Repr, Inhabited

/-- Modelled from the spec: a chain as a list of residues. -/
structure Chain where
  residues : List Residue
deriving DecidableEq, Repr, Inhabited

/-- Chain-residue-atom reference, embedded as the stable index triple the
spec's design notes prescribe for the non-owning CRA pointer bundle. -/
structure CRAIdx where
  chain_idx : ℕ := 0
  residue_idx : ℕ := 0
  atom_idx : ℕ := 0
deriving DecidableEq, Repr, Inhabited

/-- Modelled from the spec: a connection already recorded in the structure,
reduced to its two atom references (spec 4.5 compares endpoints by
atom-reference equality). -/
structure Connection where
  atom0 : CRAIdx
  atom1 : CRAIdx
deriving DecidableEq, Repr, Inhabited

/-- Modelled from the spec: a model holding chains and recorded
connections. -/
structure Model where
  chains : List Chain
  connections : List Connection
deriving DecidableEq, Repr, Inhabited

/-- Modelled from the spec: a structure holding its models and the unit
cell's symmetry images, each image being the position transform of one
symmetry operation (spec section 3, "UnitCell" and "SpatialMark"). -/
structure Structure where
  models : List Model
  images : List (Position → Position)

/-- Modelled from the spec: one entry of the spatial index, recording the
owning atom's index triple, which symmetry image produced it (0 is the
original asymmetric unit), the transformed position and the altloc code
(spec section 3, "SpatialMark"; subcells.hpp is not in this tree). -/
structure Mark where
  pos : Position
  altloc : Option Char
  image_idx : ℕ
  chain_idx : ℕ
  residue_idx : ℕ
  atom_idx : ℕ
deriving DecidableEq, Repr, Inhabited

/-- Modelled from the spec: chemical group tag of a link side
(peptide / nucleic acid / pyranose / none). -/
inductive ChemLinkGroup where
  | Peptide
  | DnaRna
  | Pyranose
  | Null
deriving DecidableEq, Repr, Inhabited

/-- Modelled from the spec: one side of a dictionary rule, either an explicit
residue name or a group tag (spec section 3, "ChemLinkRule"). -/
structure ChemLinkSide where
  comp : String
  group : ChemLinkGroup
deriving DecidableEq, Repr, Inhabited

/-- Modelled from the spec: expected sign of a chirality constraint;
Both means either handedness is allowed. -/
inductive ChiralityType where
  | Positive
  | Negative
  | Both
deriving DecidableEq, Repr, Inhabited

/-- Modelled from the spec: a restraint atom reference, naming an atom and
which of the two residues of the link it belongs to (component 1 or 2). -/
structure AtomId where
  comp : ℕ
  atom : String
deriving DecidableEq, Repr, Inhabited

/-- Modelled from the spec: a bond restraint with its two atom-name
endpoints and ideal length. -/
structure Bond where
  id1 : AtomId
  id2 : AtomId
  value : ℚ
deriving DecidableEq, Repr, Inhabited

/-- Modelled from the spec: a chirality constraint with four atom references
and the expected sign. -/
structure Chirality where
  id_ctr : AtomId
  id1 : AtomId
  id2 : AtomId
  id3 : AtomId
  chir : ChiralityType
deriving DecidableEq, Repr, Inhabited

/-- Modelled from the spec: the restraint set of a rule, with its bonds and
chirality constraints. -/
structure Restraints where
  bonds : List Bond
  chirs : List Chirality
deriving DecidableEq, Repr, Inhabited

/-- Modelled from the spec: one dictionary entry with an identifier, two
sides and a restraint set. -/
structure ChemLink where
  id : String
  side1 : ChemLinkSide
  side2 : ChemLinkSide
  rt : Restraints
deriving DecidableEq, Repr, Inhabited

/-- Modelled from the spec: the residue-chemistry classification consumed
when building res_group. -/
structure ResidueInfo where
  is_amino_acid : Bool
  is_nucleic_acid : Bool
  is_pyranose : Bool
deriving DecidableEq, Repr, Inhabited

/-- Modelled from the spec: the monomer dictionary, a mapping from link
identifier to rule plus the residue-info lookup (monlib.hpp is not in this
tree). -/
structure MonLib where
  links : List (String × ChemLink)
  residue_infos : List (String × ResidueInfo)
deriving DecidableEq, Repr, Inhabited

/-- Modelled from the spec: the canonical lexicographically-ordered pair of
two atom names, the multimap key (spec 4.3; the source concatenates the two
names into one string, a pair carries the same key content). -/
def lexicographic_str (a b : String) : String × String :=
  if b < a then (b, a) else (a, b)

/-- Key of a bond restraint: the ordered pair of its endpoint names. -/
def Bond.lex_key (b : Bond) : String × String :=
  lexicographic_str b.id1.atom b.id2.atom

/-- Modelled from the spec: altloc filter of the neighbor query; two
non-empty altloc codes must agree, an empty code matches anything
(spec 4.2). -/
def altloc_compat (q c : Option Char) : Bool :=
  match q, c with
  | some a, some b => a == b
  | _, _ => true

/-- Modelled from the spec: altloc matching when resolving a restraint atom
reference inside a residue. -/
def altloc_match (a alt : Option Char) : Bool :=
  match a, alt with
  | none, _ => true
  | _, none => true
  | some c, some d => c == d

/-- Modelled from the spec: resolve a restraint atom reference against the
ordered pair of residues of the link, finding the named atom with a
compatible altloc (spec 4.4, chirality gate). -/
def AtomId.get_from (id : AtomId) (res1 res2 : Residue) (alt : Option Char) : Option Atom :=
  (if id.comp == 2 then res2 else res1).atoms.find?
    (fun a => a.name == id.atom && altloc_match a.altloc alt)

/-- Modelled from the spec: a chirality constraint is violated when it
demands a definite sign and the computed volume's sign contradicts it; zero
volume passes (spec 4.1). -/
def Chirality.is_wrong (ch : Chirality) (vol : ℚ) : Bool :=
  match ch.chir with
  | ChiralityType.Positive => decide (vol < 0)
  | ChiralityType.Negative => decide (0 < vol)
  | ChiralityType.Both => false

/-- Membership helper of linkhunt.hpp (in_vector). -/
def in_vector (s : String) (v : List String) : Bool :=
  v.contains s

/-- The generic conformational link identifiers excluded at indexing time
(linkhunt.hpp, index_chem_links). -/
def blacklist : List String :=
  ["TRANS", "PTRANS", "NMTRANS", "CIS", "PCIS", "NMCIS", "p", "SS"]

/-- A dictionary rule survives indexing when it has at least one bond and is
not a fully generic rule: both sides without an explicit residue name while
either side's group is Null or the identifier is blacklisted
(linkhunt.hpp lines 48-57). -/
def link_retained (link : ChemLink) : Bool :=
  match link.rt.bonds with
  | [] => false
  | _ :: _ =>
    !(link.side1.comp == "" && link.side2.comp == "" &&
      (link.side1.group == ChemLinkGroup.Null ||
       link.side2.group == ChemLinkGroup.Null ||
       in_vector link.id blacklist))

/-- std::map emplace followed by a maximum update: insert the key if absent,
otherwise raise the stored value when the new one is larger
(linkhunt.hpp lines 62-64). -/
def emplace_max (m : List (String × ℚ)) (key : String) (v : ℚ) : List (String × ℚ) :=
  match m.lookup key with
  | none => m ++ [(key, v)]
  | some old =>
    if old < v then m.map (fun kv => if kv.1 == key then (kv.1, v) else kv) else m

/-- Group classification of one residue-info entry
(linkhunt.hpp lines 69-76). -/
def res_group_of (ri : ResidueInfo) : ChemLinkGroup :=
  if ri.is_amino_acid then ChemLinkGroup.Peptide
  else if ri.is_nucleic_acid then ChemLinkGroup.DnaRna
  else if ri.is_pyranose then ChemLinkGroup.Pyranose
  else ChemLinkGroup.Null

/-- The search state of linkhunt.hpp: the maximum indexed bond length (seeded
with the Zn-Cys distance 2.34), the rule multimap keyed by ordered atom-name
pairs, the residue-group table and the per-atom-name maximum distance. -/
structure LinkHunt where
  global_max_dist : ℚ := 2.34
  links : List ((String × String) × ChemLink) := []
  res_group : List (String × ChemLinkGroup) := []
  max_dist_per_atom : List (String × ℚ) := []
deriving DecidableEq, Repr, Inhabited

/-- One indexing step of index_chem_links: skip non-retained rules, update
the global maximum, emplace the first bond's endpoint names (the source
writes the brace list with bond.id1.atom twice, so id2's name is never
inserted; mirrored here) and append to the multimap
(linkhunt.hpp lines 46-67). -/
def index_step (lh : LinkHunt) (entry : String × ChemLink) : LinkHunt :=
  let link := entry.2
  if link_retained link then
    match link.rt.bonds with
    | [] => lh
    | bond :: _ =>
      { lh with
        global_max_dist :=
          if lh.global_max_dist < bond.value then bond.value else lh.global_max_dist
        max_dist_per_atom :=
          emplace_max (emplace_max lh.max_dist_per_atom bond.id1.atom bond.value)
            bond.id1.atom bond.value
        links := lh.links ++ [(bond.lex_key, link)] }
  else lh

/-- index_chem_links of linkhunt.hpp: fold the dictionary through
index_step, then build the residue-group table (first writer wins, as for
an emplace into a map). -/
def index_chem_links (ml : MonLib) : LinkHunt :=
  let lh := ml.links.foldl index_step {}
  { lh with
    res_group := ml.residue_infos.foldl
      (fun rg ri =>
        if (rg.lookup ri.1).isSome then rg else rg ++ [(ri.1, res_group_of ri.2)])
      [] }

/-- match_link_side of linkhunt.hpp (lines 80-88): an explicit residue name
must match exactly; otherwise a non-Null group tag must equal the residue's
classified group. -/
def LinkHunt.match_link_side (lh : LinkHunt) (side : ChemLinkSide) (resname : String) : Bool :=
  if side.comp != "" then side.comp == resname
  else if side.group == ChemLinkGroup.Null then false
  else
    match lh.res_group.lookup resname with
    | none => false
    | some g => g == side.group

/-- equal_range over the rule multimap: all rules stored under a key, in
insertion order. -/
def LinkHunt.equal_range (lh : LinkHunt) (key : String × String) : List ChemLink :=
  (lh.links.filter (fun kl => kl.1 == key)).map (fun kl => kl.2)

/-- One chirality constraint of the chirality gate (linkhunt.hpp lines
145-160): a constraint allowing both signs, or one whose four atom
references do not all resolve, leaves the score unchanged; a resolved
constraint whose computed volume has the wrong sign decrements it. -/
def chir_step (res1 res2 : Residue) (alt : Option Char) (score : ℤ) (ch : Chirality) : ℤ :=
  if ch.chir == ChiralityType.Both then score
  else
    match ch.id_ctr.get_from res1 res2 alt, ch.id1.get_from res1 res2 alt,
          ch.id2.get_from res1 res2 alt, ch.id3.get_from res1 res2 alt with
    | some a1, some a2, some a3, some a4 =>
      if ch.is_wrong (calculate_chiral_volume a1.pos a2.pos a3.pos a4.pos) then
        score - 1
      else score
    | _, _, _, _ => score

/-- The chirality acceptance score of a rule: fold of chir_step over the
rule's chirality constraints, starting from 0. -/
def chirality_score (res1 res2 : Residue) (alt : Option Char) (chirs : List Chirality) : ℤ :=
  chirs.foldl (chir_step res1 res2 alt) 0

/-- Orientation test of a candidate rule (linkhunt.hpp lines 132-142):
some true when endpoint 1 carries the query atom's name and the sides match
in order, some false when endpoint 2 does and the sides match reversed,
none otherwise. -/
def LinkHunt.rule_order1 (lh : LinkHunt) (link : ChemLink) (bond : Bond)
    (atomName resName candResName : String) : Option Bool :=
  if bond.id1.atom == atomName && lh.match_link_side link.side1 resName &&
      lh.match_link_side link.side2 candResName then
    some true
  else if bond.id2.atom == atomName && lh.match_link_side link.side2 resName &&
      lh.match_link_side link.side1 candResName then
    some false
  else none

/-- The match record of linkhunt.hpp.  bond_length_sq stores the exact
squared distance; the reported bond length is its square root, taken at the
statement level.  conn is the index of a pre-existing connection. -/
structure Match where
  chem_link : Option ChemLink := none
  chem_link_count : ℕ := 0
  cra1 : CRAIdx := {}
  cra2 : CRAIdx := {}
  same_asu : Bool := true
  bond_length_sq : ℚ := 0
  conn : Option ℕ := none
deriving DecidableEq, Repr, Inhabited

/-- One candidate rule of the matching loop (linkhunt.hpp lines 127-175):
reject on the per-rule distance bound, on a failed orientation test or on a
negative chirality score; on acceptance overwrite the stored rule, bump the
counter and set the endpoints in side order. -/
def LinkHunt.try_rule (lh : LinkHunt) (bond_margin dist_sq : ℚ)
    (atomName resName candResName : String) (res candRes : Residue)
    (alt : Option Char) (qcra ccra : CRAIdx) (m : Match) (link : ChemLink) : Match :=
  match link.rt.bonds with
  | [] => m
  | bond :: _ =>
    if (bond.value * bond_margin) ^ 2 < dist_sq then m
    else
      match lh.rule_order1 link bond atomName resName candResName with
      | none => m
      | some order1 =>
        let res1 := if order1 then res else candRes
        let res2 := if order1 then candRes else res
        if chirality_score res1 res2 alt link.rt.chirs < 0 then m
        else
          { m with
            chem_link := some link
            chem_link_count := m.chem_link_count + 1
            cra1 := if order1 then qcra else ccra
            cra2 := if order1 then ccra else qcra }

/-- First admission filter (linkhunt.hpp lines 107-110): connections inside
one residue of the asymmetric unit are not considered.  The atom index is
not consulted. -/
def reject_same_residue (m : Mark) (n_ch n_res : ℕ) : Bool :=
  m.image_idx == 0 && m.chain_idx == n_ch && m.residue_idx == n_res

/-- Second admission filter (linkhunt.hpp lines 111-115): a candidate whose
index triple is lexicographically below the query's is dropped, so a pair is
never reported both as A-B and as B-A. -/
def mark_idx_lt (m : Mark) (n_ch n_res n_atom : ℕ) : Bool :=
  decide (m.chain_idx < n_ch) ||
    (m.chain_idx == n_ch &&
      (decide (m.residue_idx < n_res) ||
        (m.residue_idx == n_res && decide (m.atom_idx < n_atom))))

/-- Third admission filter (linkhunt.hpp lines 116-120): the query atom
matched against its own mark closer than 0.8 Angstrom is a special-position
artifact and is dropped. -/
def reject_special_pos (m : Mark) (n_ch n_res n_atom : ℕ) (dist_sq : ℚ) : Bool :=
  m.chain_idx == n_ch && m.residue_idx == n_res && m.atom_idx == n_atom &&
    decide (dist_sq < (0.8 : ℚ) ^ 2)

/-- The three admission filters combined, in source order. -/
def admit_mark (m : Mark) (n_ch n_res n_atom : ℕ) (dist_sq : ℚ) : Bool :=
  !reject_same_residue m n_ch n_res &&
    !mark_idx_lt m n_ch n_res n_atom &&
    !reject_special_pos m n_ch n_res n_atom dist_sq

/-- Mark::to_cra: resolve a mark's index triple inside the model. -/
def Mark.to_cra (m : Mark) (model : Model) : Option (Chain × Residue × Atom) := do
  let chain ← model.chains.get? m.chain_idx
  let res ← chain.residues.get? m.residue_idx
  let a ← res.atoms.get? m.atom_idx
  pure (chain, res, a)

/-- The per-candidate body of the neighbor query (linkhunt.hpp lines
106-190): run the admission filters, fold the rules stored under the
atom-name pair, and fall back to the covalent-radius heuristic when no rule
was accepted. -/
def LinkHunt.visit (lh : LinkHunt) (model : Model) (bond_margin radius_margin : ℚ)
    (n_ch n_res n_atom : ℕ) (res : Residue) (atom : Atom)
    (m : Mark) (dist_sq : ℚ) : Option Match :=
  if admit_mark m n_ch n_res n_atom dist_sq then
    match m.to_cra model with
    | none => none
    | some cra =>
      let candRes := cra.2.1
      let candAtom := cra.2.2
      let qcra : CRAIdx := ⟨n_ch, n_res, n_atom⟩
      let ccra : CRAIdx := ⟨m.chain_idx, m.residue_idx, m.atom_idx⟩
      let alt : Option Char :=
        match atom.altloc with
        | some c => some c
        | none => candAtom.altloc
      let rules := lh.equal_range (lexicographic_str atom.name candAtom.name)
      let acc := rules.foldl
        (lh.try_rule bond_margin dist_sq atom.name res.name candRes.name res candRes alt
          qcra ccra)
        {}
      match acc.chem_link with
      | some _ =>
        some { acc with same_asu := m.image_idx == 0, bond_length_sq := dist_sq }
      | none =>
        let r1 := atom.element.covalent_r
        let r2 := candAtom.element.covalent_r
        if ((r1 + r2) * radius_margin) ^ 2 < dist_sq then none
        else
          some { acc with
                 cra1 := ccra
                 cra2 := qcra
                 same_asu := m.image_idx == 0
                 bond_length_sq := dist_sq }
  else none

/-- The outer scan order of the engine: chains, then residues, then atoms,
each with its running index (linkhunt.hpp lines 96-101). -/
def all_slots (model : Model) : List ((ℕ × ℕ × ℕ) × Residue × Atom) :=
  model.chains.enum.flatMap (fun c =>
    c.2.residues.enum.flatMap (fun r =>
      r.2.atoms.enum.map (fun a => ((c.1, r.1, a.1), r.2, a.2))))

/-- Modelled from the spec: the populated spatial index, one mark per atom
and symmetry image; image 0 is the untransformed asymmetric unit, image k+1
applies the k-th symmetry operation (spec 4.2; subcells.hpp is not in this
tree).  The modelled index keeps every image; the build cutoff only sizes
the buckets, exact distances are checked by the query. -/
def populate (model : Model) (images : List (Position → Position)) (_cutoff : ℚ) : List Mark :=
  (all_slots model).flatMap (fun slot =>
    { pos := slot.2.2.pos, altloc := slot.2.2.altloc, image_idx := 0,
      chain_idx := slot.1.1, residue_idx := slot.1.2.1, atom_idx := slot.1.2.2 } ::
      images.enum.map (fun kf =>
        { pos := kf.2 slot.2.2.pos, altloc := slot.2.2.altloc, image_idx := kf.1 + 1,
          chain_idx := slot.1.1, residue_idx := slot.1.2.1, atom_idx := slot.1.2.2 }))

/-- Modelled from the spec: the neighbor query, yielding every indexed mark
within the radius of the query position together with its exact squared
distance, filtered by altloc compatibility (spec 4.2, for_each_neighbor). -/
def for_each (marks : List Mark) (pos : Position) (alt : Option Char) (radius : ℚ) :
    List (Mark × ℚ) :=
  marks.filterMap (fun m =>
    let d := distSq pos m.pos
    if altloc_compat alt m.altloc && decide (d ≤ radius ^ 2) then some (m, d) else none)

/-- find_connection_by_cra of linkhunt.hpp: index of the first recorded
connection whose endpoints equal the two references in either order. -/
def find_connection_by_cra (model : Model) (cra1 cra2 : CRAIdx) : Option ℕ :=
  ((model.connections.enum.find? (fun ic =>
      (ic.2.atom0 == cra1 && ic.2.atom1 == cra2) ||
        (ic.2.atom0 == cra2 && ic.2.atom1 == cra1))).map (fun ic => ic.1))

/-- The spatial-index build radius (linkhunt.hpp line 94): at least 5, else
the indexed maximum bond length scaled by the bond margin. -/
def LinkHunt.sc_radius (lh : LinkHunt) (bond_margin : ℚ) : ℚ :=
  max 5 (lh.global_max_dist * bond_margin)

/-- The full scan of one model (linkhunt.hpp lines 94-196): populate the
index, skip query atoms whose name has no per-atom distance, query the
index with that distance, run visit on every returned mark, and finally
annotate every match with a pre-existing connection. -/
def LinkHunt.find_links_model (lh : LinkHunt) (model : Model)
    (images : List (Position → Position)) (bond_margin radius_margin : ℚ) : List Match :=
  let marks := populate model images (lh.sc_radius bond_margin)
  let raw := (all_slots model).flatMap (fun slot =>
    match lh.max_dist_per_atom.lookup slot.2.2.name with
    | none => []
    | some r =>
      (for_each marks slot.2.2.pos slot.2.2.altloc r).filterMap (fun md =>
        lh.visit model bond_margin radius_margin slot.1.1 slot.1.2.1 slot.1.2.2
          slot.2.1 slot.2.2 md.1 md.2))
  raw.map (fun mt => { mt with conn := find_connection_by_cra model mt.cra1 mt.cra2 })

/-- find_possible_links of linkhunt.hpp: the first model is taken with
models.at(0), which raises out_of_range when no model is present; otherwise
the scan of that model is returned. -/
def LinkHunt.find_possible_links (lh : LinkHunt) (st : Structure)
    (bond_margin radius_margin : ℚ) : Except String (List Match) :=
  match st.models with
  | [] => Except.error "out_of_range"
  | model :: _ =>
    Except.ok (lh.find_links_model model st.images bond_margin radius_margin)

/-- The multimap key a rule is indexed under: the ordered endpoint pair of
its first bond. -/
def link_key (link : ChemLink) : String × String :=
  match link.rt.bonds with
  | [] => ("", "")
  | bond :: _ => bond.lex_key

/-- The ideal length of a rule's first bond, the one the engine matches
against. -/
def link_first_bond_value (link : ChemLink) : ℚ :=
  match link.rt.bonds with
  | [] => 0
  | bond :: _ => bond.value

/-- Characterization of a contradicting chirality constraint: it demands a
definite sign, all four reference atoms resolve, and the computed volume has
the wrong sign. -/
def chir_contradicts (res1 res2 : Residue) (alt : Option Char) (ch : Chirality) : Bool :=
  ch.chir != ChiralityType.Both &&
    (match ch.id_ctr.get_from res1 res2 alt, ch.id1.get_from res1 res2 alt,
           ch.id2.get_from res1 res2 alt, ch.id3.get_from res1 res2 alt with
     | some a1, some a2, some a3, some a4 =>
       ch.is_wrong (calculate_chiral_volume a1.pos a2.pos a3.pos a4.pos)
     | _, _, _, _ => false)

/-- The orientation a candidate rule would match in, determined from its
first bond. -/
def LinkHunt.accepted_order1 (lh : LinkHunt) (atomName resName candResName : String)
    (link : ChemLink) : Option Bool :=
  match link.rt.bonds with
  | [] => none
  | bond :: _ => lh.rule_order1 link bond atomName resName candResName

/-- Characterization of rule acceptance by try_rule: the first bond's scaled
length bound holds, the orientation test succeeds and the chirality score is
not negative. -/
def LinkHunt.accepts_rule (lh : LinkHunt) (bond_margin dist_sq : ℚ)
    (atomName resName candResName : String) (res candRes : Residue) (alt : Option Char)
    (link : ChemLink) : Bool :=
  match link.rt.bonds with
  | [] => false
  | bond :: _ =>
    !(decide ((bond.value * bond_margin) ^ 2 < dist_sq)) &&
      (match lh.rule_order1 link bond atomName resName candResName with
       | none => false
       | some order1 =>
         !(decide (chirality_score (if order1 then res else candRes)
             (if order1 then candRes else res) alt link.rt.chirs < 0)))

/-- A match record joins the two given atom references, in either order. -/
def unordered_pair_is (mt : Match) (p q : CRAIdx) : Bool :=
  (mt.cra1 == p && mt.cra2 == q) || (mt.cra1 == q && mt.cra2 == p)

/-- The index triple of an atom reference. -/
def CRAIdx.triple (c : CRAIdx) : ℕ × ℕ × ℕ :=
  (c.chain_idx, c.residue_idx, c.atom_idx)

/-- Lexicographic order on index triples, the order the duplicate-pair
filter compares in. -/
def triple_lt (a b : ℕ × ℕ × ℕ) : Prop :=
  a.1 < b.1 ∨ (a.1 = b.1 ∧ (a.2.1 < b.2.1 ∨ (a.2.1 = b.2.1 ∧ a.2.2 < b.2.2)))

/-- Concrete input: an element with covalent radius 0.7. -/
def cexElem : Element := ⟨0.7⟩

/-- Concrete input: query-side atom of the pair scenario. -/
def cexAtomA : Atom := { name := "A1", altloc := none, element := cexElem, pos := ⟨0, 0, 0⟩ }

/-- Concrete input: partner atom of the pair scenario, 1.5 Angstrom away. -/
def cexAtomB : Atom := { name := "B1", altloc := none, element := cexElem, pos := ⟨3/2, 0, 0⟩ }

/-- Concrete input: one chain with the two atoms in separate residues. -/
def cexModel : Model :=
  { chains := [⟨[⟨"R", [cexAtomA]⟩, ⟨"R", [cexAtomB]⟩]⟩], connections := [] }

/-- Concrete input: the structure with one lattice-translation symmetry
image shifting x by -3, which puts the image of B1 at distance 1.5 from A1
on the other side. -/
def cexSt : Structure :=
  { models := [cexModel], images := [fun p => ⟨p.x - 3, p.y, p.z⟩] }

/-- Concrete input: a dictionary rule bonding A1 of residue R to B1 of
residue R at ideal length 2. -/
def cexLink : ChemLink :=
  { id := "L", side1 := ⟨"R", ChemLinkGroup.Null⟩, side2 := ⟨"R", ChemLinkGroup.Null⟩,
    rt := { bonds := [⟨⟨1, "A1"⟩, ⟨2, "B1"⟩, 2⟩], chirs := [] } }

/-- Concrete input: the dictionary holding only that rule. -/
def cexML : MonLib := { links := [("L", cexLink)], residue_infos := [] }

/-- Concrete input: the indexed dictionary of the pair scenario. -/
def cexLH : LinkHunt := index_chem_links cexML

/-- The same-asymmetric-unit match the pair scenario produces. -/
def cexMatch1 : Match :=
  { chem_link := some cexLink, chem_link_count := 1, cra1 := ⟨0, 0, 0⟩, cra2 := ⟨0, 1, 0⟩,
    same_asu := true, bond_length_sq := 9/4, conn := none }

/-- The symmetry-image match the pair scenario produces for the same
unordered atom pair. -/
def cexMatch2 : Match :=
  { chem_link := some cexLink, chem_link_count := 1, cra1 := ⟨0, 0, 0⟩, cra2 := ⟨0, 1, 0⟩,
    same_asu := false, bond_length_sq := 9/4, conn := none }

/-- Concrete input: an element for the Zn-Cys scenario. -/
def znElem : Element := ⟨1.2⟩

/-- Concrete input: a zinc atom at the origin, scanned first. -/
def znAtom : Atom := { name := "ZN", altloc := none, element := znElem, pos := ⟨0, 0, 0⟩ }

/-- Concrete input: a cysteine sulfur 2.3 Angstrom away, scanned second. -/
def sgAtom : Atom := { name := "SG", altloc := none, element := znElem, pos := ⟨23/10, 0, 0⟩ }

/-- Concrete input: one chain, zinc in the first residue, sulfur in the
second. -/
def znModel : Model :=
  { chains := [⟨[⟨"RES", [znAtom]⟩, ⟨"RES", [sgAtom]⟩]⟩], connections := [] }

/-- Concrete input: the Zn-Cys structure without symmetry images. -/
def znSt : Structure := { models := [znModel], images := [] }

/-- Concrete input: a rule whose first bond names SG as endpoint 1 and ZN
as endpoint 2, ideal length 2.3. -/
def znLink : ChemLink :=
  { id := "ZNSG", side1 := ⟨"RES", ChemLinkGroup.Null⟩, side2 := ⟨"RES", ChemLinkGroup.Null⟩,
    rt := { bonds := [⟨⟨1, "SG"⟩, ⟨2, "ZN"⟩, 23/10⟩], chirs := [] } }

/-- Concrete input: the dictionary holding only the SG-ZN rule. -/
def znML : MonLib := { links := [("ZNSG", znLink)], residue_infos := [] }

/-- Concrete input: the indexed SG-ZN dictionary. -/
def znLH : LinkHunt := index_chem_links znML

end Gemmi

deriving instance DecidableEq for Except

namespace Gemmi

/-! Helper lemmas about the dictionary indexing fold. -/

theorem foldl_index_step_global (entries : List (String × ChemLink)) :
    ∀ lh : LinkHunt, (entries.foldl index_step lh).global_max_dist =
      ((entries.map Prod.snd).filter link_retained).foldl
        (fun g l => max g (link_first_bond_value l)) lh.global_max_dist := by
  induction entries with
  | nil => intro lh; rfl
  | cons e t ih =>
    intro lh
    simp only [List.foldl_cons, List.map_cons, List.filter_cons]
    rw [ih]
    by_cases hr : link_retained e.2
    · simp only [hr, if_pos]
      rw [List.foldl_cons]
      congr 1
      cases hb : e.2.rt.bonds with
      | nil =>
        exfalso
        unfold link_retained at hr
        rw [hb] at hr
        simp at hr
      | cons bond rest =>
        simp only [index_step, hr, if_pos, hb, link_first_bond_value]
        rcases lt_or_le lh.global_max_dist bond.value with h | h
        · rw [if_pos h, max_eq_right h.le]
        · rw [if_neg (not_lt.mpr h), max_eq_left h]
    · simp only [hr]
      rw [if_neg (by simp [hr])]
      congr 1
      simp [index_step, hr]

theorem foldl_index_step_links (entries : List (String × ChemLink)) :
    ∀ lh : LinkHunt, (entries.foldl index_step lh).links =
      lh.links ++ ((entries.map Prod.snd).filter link_retained).map (fun l => (link_key l, l)) := by
  induction entries with
  | nil => intro lh; simp
  | cons e t ih =>
    intro lh
    simp only [List.foldl_cons, List.map_cons, List.filter_cons]
    rw [ih]
    by_cases hr : link_retained e.2
    · simp only [hr, if_pos, List.map_cons]
      cases hb : e.2.rt.bonds with
      | nil =>
        exfalso
        unfold link_retained at hr
        rw [hb] at hr
        simp at hr
      | cons bond rest =>
        have hstep : (index_step lh e).links = lh.links ++ [(link_key e.2, e.2)] := by
          simp [index_step, hr, hb, link_key]
        rw [hstep, List.append_assoc]
        rfl
    · simp only [hr]
      rw [if_neg (by simp [hr])]
      congr 1
      simp [index_step, hr]

theorem index_chem_links_links (ml : MonLib) :
    (index_chem_links ml).links =
      ((ml.links.map Prod.snd).filter link_retained).map (fun l => (link_key l, l)) := by
  simp only [index_chem_links]
  rw [foldl_index_step_links]
  rfl

theorem index_chem_links_global (ml : MonLib) :
    (index_chem_links ml).global_max_dist =
      ((ml.links.map Prod.snd).filter link_retained).foldl
        (fun g l => max g (link_first_bond_value l)) 2.34 := by
  simp only [index_chem_links]
  rw [foldl_index_step_global]

/-- C4 (corrected): the first admission filter rejects a candidate exactly
when its symmetry image index is 0 and its chain and residue indices equal
the query's; the atom index is not consulted, so the filter excludes every
intra-residue pair of the asymmetric unit, in particular the query atom
itself. -/
theorem C4_first_filter_residue_level (m : Mark) (n_ch n_res : ℕ) :
    reject_same_residue m n_ch n_res = true ↔
      (m.image_idx = 0 ∧ m.chain_idx = n_ch ∧ m.residue_idx = n_res) := by
  simp [reject_same_residue, and_assoc]

/-- C4 counterexample: a candidate in the query's residue with a different
atom index (atom 1 against query atom 0) is rejected by the first filter,
refuting the claim that rejection requires all three indices to be
identical. -/
theorem C4_counterexample :
    ¬ (reject_same_residue
          { pos := ⟨0, 0, 0⟩, altloc := none, image_idx := 0, chain_idx := 0,
            residue_idx := 0, atom_idx := 1 } 0 0 = true ↔
        (0 = 0 ∧ 0 = 0 ∧ 0 = 0 ∧ (1 : ℕ) = 0)) := by
  decide

/-- C5 (confirmed): a candidate mark carrying the query atom's own index
triple through a nonzero symmetry image passes the three admission filters
exactly when its transformed squared distance is at least 0.8 squared; below
that it is dropped as a special-position artifact, at or above it survives
and may be matched. -/
theorem C5_self_image_admission (p : Position) (alt : Option Char)
    (k n_ch n_res n_atom : ℕ) (dist_sq : ℚ) :
    admit_mark
        { pos := p, altloc := alt, image_idx := k + 1, chain_idx := n_ch,
          residue_idx := n_res, atom_idx := n_atom }
        n_ch n_res n_atom dist_sq = true ↔
      (0.8 : ℚ) ^ 2 ≤ dist_sq := by
  simp [admit_mark, reject_same_residue, mark_idx_lt, reject_special_pos, not_lt]

/-- C9 (corrected): after indexing, global_max_dist is the maximum of the
seed 2.34 and the first-bond lengths of all retained rules, and the spatial
index build radius is the maximum of 5.0 and global_max_dist scaled by the
caller's bond margin (the claim omitted the lower clamp at 5.0). -/
theorem C9_global_max_dist_and_radius (ml : MonLib) (bond_margin : ℚ) :
    (index_chem_links ml).global_max_dist =
      ((ml.links.map Prod.snd).filter link_retained).foldl
        (fun g l => max g (link_first_bond_value l)) 2.34 ∧
    (index_chem_links ml).sc_radius bond_margin =
      max 5 ((index_chem_links ml).global_max_dist * bond_margin) := by
  exact ⟨index_chem_links_global ml, rfl⟩

/-- C9 counterexample: with an empty dictionary and bond margin 1 the build
radius is 5, while global_max_dist times the margin is 2.34, so the radius
is not the product the claim states. -/
theorem C9_counterexample :
    (index_chem_links ⟨[], []⟩).sc_radius 1 = 5 ∧
    (index_chem_links ⟨[], []⟩).global_max_dist * 1 = 2.34 ∧
    (5 : ℚ) ≠ 2.34 := by
  refine ⟨?_, ?_, ?_⟩ <;> with_unfolding_all decide

/-- C10 (corrected): with a model present whose chain list is empty the
search returns an empty match list without error, but with no model at all
it raises out_of_range (models.at(0)), refuting the claim's no-model half. -/
theorem C10_empty_model_behaviour (lh : LinkHunt) (imgs : List (Position → Position))
    (conns : List Connection) (bm rm : ℚ) :
    lh.find_possible_links ⟨[], imgs⟩ bm rm = Except.error "out_of_range" ∧
    lh.find_possible_links ⟨[{ chains := [], connections := conns }], imgs⟩ bm rm =
      Except.ok [] := by
  exact ⟨rfl, rfl⟩

/-- C10 counterexample: a structure with no model makes find_possible_links
raise out_of_range instead of returning an empty list. -/
theorem C10_counterexample :
    ({} : LinkHunt).find_possible_links ⟨[], []⟩ 1 1 = Except.error "out_of_range" := rfl

/-- C3 (code bug): the retained SG-ZN rule references ZN as its second
endpoint, yet max_dist_per_atom lacks ZN (the source inserts id1's name
twice); consequently a ZN query atom is skipped, and in this two-atom
structure at exact bond distance the engine finds no link at all, because
the SG query sees ZN only as a lower-indexed candidate and drops it. -/
theorem C3_max_dist_per_atom_misses_id2 :
    znLH.max_dist_per_atom.lookup "ZN" = none ∧
    znLH.max_dist_per_atom.lookup "SG" = some (23/10) ∧
    znLink.rt.bonds.head? = some { id1 := ⟨1, "SG"⟩, id2 := ⟨2, "ZN"⟩, value := 23/10 } ∧
    znLH.links = [(("SG", "ZN"), znLink)] ∧
    znLH.find_possible_links znSt 1 1 = Except.ok [] := by
  refine ⟨?_, ?_, ?_, ?_, ?_⟩ <;> with_unfolding_all decide

end Gemmi

namespace Gemmi

theorem chir_step_eq (res1 res2 : Residue) (alt : Option Char) (s : ℤ) (ch : Chirality) :
    chir_step res1 res2 alt s ch =
      s - (if chir_contradicts res1 res2 alt ch then 1 else 0) := by
  by_cases hB : ch.chir = ChiralityType.Both
  · simp [chir_step, chir_contradicts, hB]
  · have hBB : (ch.chir == ChiralityType.Both) = false := by
      simp [hB]
    unfold chir_step chir_contradicts
    rcases h1 : ch.id_ctr.get_from res1 res2 alt with _ | a1 <;>
      rcases h2 : ch.id1.get_from res1 res2 alt with _ | a2 <;>
        rcases h3 : ch.id2.get_from res1 res2 alt with _ | a3 <;>
          rcases h4 : ch.id3.get_from res1 res2 alt with _ | a4 <;>
            simp only [h1, h2, h3, h4, hBB] <;>
              first
                | (simp; done)
                | (by_cases hw :
                      ch.is_wrong (calculate_chiral_volume a1.pos a2.pos a3.pos a4.pos) <;>
                    simp [hw, hB])

theorem chirality_score_eq (res1 res2 : Residue) (alt : Option Char)
    (chirs : List Chirality) :
    chirality_score res1 res2 alt chirs =
      -(chirs.countP (chir_contradicts res1 res2 alt) : ℤ) := by
  unfold chirality_score
  have h : ∀ s : ℤ, chirs.foldl (chir_step res1 res2 alt) s =
      s - (chirs.countP (chir_contradicts res1 res2 alt) : ℤ) := by
    induction chirs with
    | nil => intro s; simp
    | cons ca t ih =>
      intro s
      rw [List.foldl_cons, chir_step_eq, ih, List.countP_cons]
      by_cases hc : chir_contradicts res1 res2 alt ca = true
      all_goals simp [hc]
      all_goals omega
  have h0 := h 0
  rw [h0]
  ring

/-- C6 (confirmed): the chirality acceptance score equals minus the number
of constraints that contradict their expected sign (constraints allowing
both signs or with unresolvable reference atoms contribute nothing), so the
gate's rejection condition, a negative score, holds exactly when at least
one resolved constraint's chiral volume contradicts its expected sign. -/
theorem C6_chirality_gate (res1 res2 : Residue) (alt : Option Char)
    (chirs : List Chirality) :
    chirality_score res1 res2 alt chirs =
      -(chirs.countP (chir_contradicts res1 res2 alt) : ℤ) ∧
    (chirality_score res1 res2 alt chirs < 0 ↔
      ∃ ch ∈ chirs, chir_contradicts res1 res2 alt ch = true) := by
  refine ⟨chirality_score_eq res1 res2 alt chirs, ?_⟩
  rw [chirality_score_eq]
  rw [neg_lt_zero]
  rw [show ((0 : ℤ) < (chirs.countP (chir_contradicts res1 res2 alt) : ℤ)) ↔
      0 < chirs.countP (chir_contradicts res1 res2 alt) from Nat.cast_pos]
  exact List.countP_pos_iff

end Gemmi

namespace Gemmi

theorem try_rule_not_accepted (lh : LinkHunt) (bm d : ℚ) (an rn crn : String)
    (res cres : Residue) (alt : Option Char) (q c : CRAIdx) (m : Match) (link : ChemLink)
    (h : lh.accepts_rule bm d an rn crn res cres alt link = false) :
    lh.try_rule bm d an rn crn res cres alt q c m link = m := by
  unfold LinkHunt.accepts_rule at h
  unfold LinkHunt.try_rule
  cases hb : link.rt.bonds with
  | nil => rfl
  | cons bond rest =>
    rw [hb] at h
    dsimp only at h ⊢
    by_cases hd : (bond.value * bm) ^ 2 < d
    · simp [hd]
    · rw [if_neg hd]
      cases ho : lh.rule_order1 link bond an rn crn with
      | none => simp [ho]
      | some o =>
        rw [decide_eq_false hd] at h
        simp only [Bool.not_false, Bool.true_and] at h
        rw [ho] at h
        dsimp only at h
        have hscore :
            chirality_score (if o then res else cres) (if o then cres else res) alt
              link.rt.chirs < 0 := by
          by_contra hns
          rw [decide_eq_false hns] at h
          simp at h
        simp [ho, hscore]

theorem try_rule_accepted (lh : LinkHunt) (bm d : ℚ) (an rn crn : String)
    (res cres : Residue) (alt : Option Char) (q c : CRAIdx) (m : Match) (link : ChemLink)
    (h : lh.accepts_rule bm d an rn crn res cres alt link = true) :
    ∃ b : Bool, lh.accepted_order1 an rn crn link = some b ∧
      lh.try_rule bm d an rn crn res cres alt q c m link =
        { m with
          chem_link := some link
          chem_link_count := m.chem_link_count + 1
          cra1 := if b then q else c
          cra2 := if b then c else q } := by
  unfold LinkHunt.accepts_rule at h
  unfold LinkHunt.accepted_order1 LinkHunt.try_rule
  cases hb : link.rt.bonds with
  | nil => rw [hb] at h; exact absurd h (by simp)
  | cons bond rest =>
    rw [hb] at h
    dsimp only at h ⊢
    by_cases hd : (bond.value * bm) ^ 2 < d
    · rw [decide_eq_true hd] at h
      simp at h
    · cases ho : lh.rule_order1 link bond an rn crn with
      | none => rw [ho] at h; simp at h
      | some o =>
        rw [ho] at h
        simp only [decide_eq_false hd, Bool.not_false, Bool.true_and] at h
        have hscore :
            ¬ chirality_score (if o then res else cres) (if o then cres else res) alt
              link.rt.chirs < 0 := by
          intro hlt
          rw [decide_eq_true hlt] at h
          simp at h
        refine ⟨o, rfl, ?_⟩
        rw [if_neg hd]
        simp [ho, hscore]

/-- C7 (confirmed): after folding the rules stored under a pair's key, the
match counter equals the number of accepted rules, the stored rule is the
last accepted one in table order, and the two endpoints are set by that last
accepted rule's orientation (query first for order 1, candidate first for
order 2; the untouched defaults remain when nothing was accepted). -/
theorem C7_last_accepted_rule (lh : LinkHunt) (bm d : ℚ) (an rn crn : String)
    (res cres : Residue) (alt : Option Char) (q c : CRAIdx) (rules : List ChemLink) :
    ((rules.foldl (lh.try_rule bm d an rn crn res cres alt q c) {}).chem_link_count =
        (rules.filter (lh.accepts_rule bm d an rn crn res cres alt)).length) ∧
    ((rules.foldl (lh.try_rule bm d an rn crn res cres alt q c) {}).chem_link =
        (rules.filter (lh.accepts_rule bm d an rn crn res cres alt)).getLast?) ∧
    ((rules.foldl (lh.try_rule bm d an rn crn res cres alt q c) {}).cra1 =
        (match ((rules.filter (lh.accepts_rule bm d an rn crn res cres alt)).getLast?).bind
            (lh.accepted_order1 an rn crn) with
          | some true => q
          | some false => c
          | none => {})) ∧
    ((rules.foldl (lh.try_rule bm d an rn crn res cres alt q c) {}).cra2 =
        (match ((rules.filter (lh.accepts_rule bm d an rn crn res cres alt)).getLast?).bind
            (lh.accepted_order1 an rn crn) with
          | some true => c
          | some false => q
          | none => {})) := by
  induction rules using List.reverseRecOn with
  | nil => exact ⟨rfl, rfl, rfl, rfl⟩
  | append_singleton l x ih =>
    rw [List.foldl_append, List.foldl_cons, List.foldl_nil, List.filter_append]
    by_cases hx : lh.accepts_rule bm d an rn crn res cres alt x = true
    · rcases try_rule_accepted lh bm d an rn crn res cres alt q c
        (l.foldl (lh.try_rule bm d an rn crn res cres alt q c) {}) x hx with ⟨b, hb, hstep⟩
      rw [hstep]
      have hfilter : List.filter (lh.accepts_rule bm d an rn crn res cres alt) [x] = [x] := by
        simp [hx]
      rw [hfilter]
      have hlast : ∀ L : List ChemLink, (L ++ [x]).getLast? = some x := by
        intro L
        rw [List.getLast?_concat]
      rw [hlast]
      refine ⟨?_, rfl, ?_, ?_⟩
      · simp [ih.1]
      · simp only [Option.bind_some, Option.some_bind, hb]
        cases b <;> rfl
      · simp only [Option.bind_some, Option.some_bind, hb]
        cases b <;> rfl
    · rw [try_rule_not_accepted lh bm d an rn crn res cres alt q c _ x
        (Bool.eq_false_iff.mpr hx)]
      have hfilter : List.filter (lh.accepts_rule bm d an rn crn res cres alt) [x] = [] := by
        simp [hx]
      rw [hfilter, List.append_nil]
      exact ih

end Gemmi

namespace Gemmi

/-- C8 (confirmed): the rule multimap holds exactly the retained rules, and
a rule is retained precisely when it has at least one bond and it is not the
case that both sides name no explicit residue while either side's group tag
is Null or the identifier is one of the blacklisted generic conformational
links; zero-bond rules are skipped without any error. -/
theorem C8_rule_retention (ml : MonLib) (link : ChemLink) :
    ((index_chem_links ml).links =
      ((ml.links.map Prod.snd).filter link_retained).map (fun l => (link_key l, l))) ∧
    (link_retained link = true ↔
      (link.rt.bonds ≠ [] ∧
        ¬(link.side1.comp = "" ∧ link.side2.comp = "" ∧
          (link.side1.group = ChemLinkGroup.Null ∨ link.side2.group = ChemLinkGroup.Null ∨
            link.id ∈ blacklist)))) := by
  refine ⟨index_chem_links_links ml, ?_⟩
  cases hb : link.rt.bonds with
  | nil => simp [link_retained, hb]
  | cons bond rest =>
    simp [link_retained, hb, in_vector, and_assoc]
    tauto

end Gemmi

namespace Gemmi

theorem countP_filterMap_le {α β : Type} (l : List α) (f : α → Option β)
    (p : β → Bool) (q : α → Bool)
    (h : ∀ a ∈ l, ∀ b, f a = some b → p b = true → q a = true) :
    (l.filterMap f).countP p ≤ l.countP q := by
  induction l with
  | nil => simp
  | cons x t ih =>
    have ht := ih (fun a ha b => h a (List.mem_cons_of_mem x ha) b)
    rw [List.filterMap_cons, List.countP_cons]
    cases hf : f x with
    | none => exact le_trans ht (Nat.le_add_right _ _)
    | some b =>
      rw [List.countP_cons]
      by_cases hp : p b = true
      · have hq := h x (List.mem_cons_self x t) b hf hp
        rw [if_pos hp, if_pos hq]
        omega
      · rw [if_neg hp]
        split <;> omega

theorem map_sum_le_one {α : Type} (l : List α) (c : α → ℕ) (p : α → Bool)
    (h0 : ∀ a ∈ l, p a = false → c a = 0)
    (h1 : ∀ a ∈ l, c a ≤ 1)
    (hcount : l.countP p ≤ 1) :
    (l.map c).sum ≤ 1 := by
  induction l with
  | nil => simp
  | cons x t ih =>
    rw [List.map_cons, List.sum_cons]
    rw [List.countP_cons] at hcount
    cases hx : p x with
    | false =>
      rw [h0 x (List.mem_cons_self x t) hx, Nat.zero_add]
      refine ih (fun a ha => h0 a (List.mem_cons_of_mem x ha))
        (fun a ha => h1 a (List.mem_cons_of_mem x ha)) ?_
      rw [hx] at hcount
      simpa using hcount
    | true =>
      have hct : t.countP p = 0 := by
        rw [hx, if_pos rfl] at hcount
        omega
      have hzero : ∀ a ∈ t, c a = 0 := by
        intro a ha
        refine h0 a (List.mem_cons_of_mem x ha) ?_
        have hna := List.countP_eq_zero.mp hct a ha
        exact Bool.eq_false_iff.mpr hna
      rw [List.sum_eq_zero]
      · exact h1 x (List.mem_cons_self x t)
      · intro y hy
        rcases List.mem_map.mp hy with ⟨a, ha, rfl⟩
        exact hzero a ha

theorem enum_countP_fst_le_one {α : Type} (l : List α) (k : ℕ) :
    l.enum.countP (fun x => x.1 == k) ≤ 1 := by
  have h1 : l.enum.countP (fun x => x.1 == k) =
      (l.enum.map Prod.fst).countP (fun i => i == k) := by
    rw [List.countP_map]
    rfl
  rw [h1, List.enum_map_fst, ← List.count_eq_countP]
  exact List.nodup_iff_count_le_one.mp (List.nodup_range _) k

theorem all_slots_key_countP (model : Model) (t : ℕ × ℕ × ℕ) :
    (all_slots model).countP (fun s => s.1 == t) ≤ 1 := by
  unfold all_slots
  rw [List.countP_flatMap]
  refine map_sum_le_one _ _ (fun cp => cp.1 == t.1) ?_ ?_ ?_
  · intro cp _ hfalse
    simp only [Function.comp_apply]
    rw [List.countP_eq_zero]
    intro s hs
    rcases List.mem_flatMap.mp hs with ⟨rp, _, hs2⟩
    rcases List.mem_map.mp hs2 with ⟨ap, _, rfl⟩
    simp only [beq_iff_eq]
    intro he
    rw [← he] at hfalse
    simp at hfalse
  · intro cp _
    simp only [Function.comp_apply]
    rw [List.countP_flatMap]
    refine map_sum_le_one _ _ (fun rp => rp.1 == t.2.1) ?_ ?_ ?_
    · intro rp _ hfalse
      simp only [Function.comp_apply]
      rw [List.countP_eq_zero]
      intro s hs
      rcases List.mem_map.mp hs with ⟨ap, _, rfl⟩
      simp only [beq_iff_eq]
      intro he
      rw [← he] at hfalse
      simp at hfalse
    · intro rp _
      simp only [Function.comp_apply]
      rw [List.countP_map]
      refine le_trans (List.countP_mono_left (q := fun x => x.1 == t.2.2) ?_)
        (enum_countP_fst_le_one _ _)
      intro x _ hx
      simp only [Function.comp_apply, beq_iff_eq] at hx
      simp only [beq_iff_eq]
      rw [← hx]
    · exact enum_countP_fst_le_one _ _
  · exact enum_countP_fst_le_one _ _

theorem populate_image0_countP (model : Model) (images : List (Position → Position))
    (cutoff : ℚ) (t : ℕ × ℕ × ℕ) :
    (populate model images cutoff).countP
      (fun m => m.image_idx == 0 && ((m.chain_idx, m.residue_idx, m.atom_idx) == t)) ≤ 1 := by
  unfold populate
  rw [List.countP_flatMap]
  refine map_sum_le_one _ _ (fun slot => slot.1 == t) ?_ ?_ (all_slots_key_countP model t)
  · intro slot _ hfalse
    simp only [Function.comp_apply]
    rw [List.countP_eq_zero]
    intro m hm
    rcases List.mem_cons.mp hm with rfl | hm2
    · simp only [Bool.and_eq_true, beq_iff_eq]
      rintro ⟨-, he⟩
      rw [← he] at hfalse
      simp at hfalse
    · rcases List.mem_map.mp hm2 with ⟨kf, _, rfl⟩
      simp
  · intro slot _
    simp only [Function.comp_apply]
    rw [List.countP_cons]
    have htail : (images.enum.map (fun kf =>
        ({ pos := kf.2 slot.2.2.pos, altloc := slot.2.2.altloc, image_idx := kf.1 + 1,
           chain_idx := slot.1.1, residue_idx := slot.1.2.1,
           atom_idx := slot.1.2.2 } : Mark))).countP
        (fun m => m.image_idx == 0 && ((m.chain_idx, m.residue_idx, m.atom_idx) == t)) = 0 := by
      rw [List.countP_eq_zero]
      intro m hm
      rcases List.mem_map.mp hm with ⟨kf, _, rfl⟩
      simp
    rw [htail]
    split <;> omega

theorem triple_lt_asymm (a b : ℕ × ℕ × ℕ) (h1 : triple_lt a b) (h2 : triple_lt b a) : False := by
  rcases a with ⟨a1, a2, a3⟩
  rcases b with ⟨b1, b2, b3⟩
  simp only [triple_lt] at h1 h2
  omega

theorem triple_lt_total (a b : ℕ × ℕ × ℕ) (h1 : ¬ triple_lt a b) (h2 : ¬ triple_lt b a) :
    a = b := by
  rcases a with ⟨a1, a2, a3⟩
  rcases b with ⟨b1, b2, b3⟩
  simp only [triple_lt, Prod.mk.injEq] at h1 h2 ⊢
  omega

theorem mark_idx_lt_iff (m : Mark) (n_ch n_res n_atom : ℕ) :
    mark_idx_lt m n_ch n_res n_atom = true ↔
      triple_lt (m.chain_idx, m.residue_idx, m.atom_idx) (n_ch, n_res, n_atom) := by
  simp [mark_idx_lt, triple_lt]

theorem unordered_pair_is_symm (mt : Match) (p q : CRAIdx) :
    unordered_pair_is mt p q = unordered_pair_is mt q p := by
  unfold unordered_pair_is
  rw [Bool.or_comm]

theorem CRAIdx_triple_inj (p q : CRAIdx) (h : p.triple = q.triple) : p = q := by
  rcases p with ⟨p1, p2, p3⟩
  rcases q with ⟨q1, q2, q3⟩
  simp only [CRAIdx.triple, Prod.mk.injEq] at h
  obtain ⟨h1, h2, h3⟩ := h
  rw [h1, h2, h3]

end Gemmi

namespace Gemmi

theorem accepts_rule_bound (lh : LinkHunt) (bm d : ℚ) (an rn crn : String)
    (res cres : Residue) (alt : Option Char) (link : ChemLink)
    (h : lh.accepts_rule bm d an rn crn res cres alt link = true) :
    ¬ ((link_first_bond_value link * bm) ^ 2 < d) := by
  unfold LinkHunt.accepts_rule at h
  cases hb : link.rt.bonds with
  | nil => rw [hb] at h; simp at h
  | cons bond rest =>
    rw [hb] at h
    dsimp only at h
    unfold link_first_bond_value
    rw [hb]
    intro hlt
    rw [decide_eq_true hlt] at h
    simp at h

theorem try_rule_step_cases (lh : LinkHunt) (bm d : ℚ) (an rn crn : String)
    (res cres : Residue) (alt : Option Char) (q c : CRAIdx) (acc : Match) (link : ChemLink) :
    lh.try_rule bm d an rn crn res cres alt q c acc link = acc ∨
    (lh.accepts_rule bm d an rn crn res cres alt link = true ∧
      ∃ b : Bool, lh.try_rule bm d an rn crn res cres alt q c acc link =
        { acc with
          chem_link := some link
          chem_link_count := acc.chem_link_count + 1
          cra1 := if b then q else c
          cra2 := if b then c else q }) := by
  by_cases h : lh.accepts_rule bm d an rn crn res cres alt link = true
  · rcases try_rule_accepted lh bm d an rn crn res cres alt q c acc link h with ⟨b, _, hstep⟩
    exact Or.inr ⟨h, b, hstep⟩
  · exact Or.inl (try_rule_not_accepted lh bm d an rn crn res cres alt q c acc link
      (Bool.eq_false_iff.mpr h))

theorem try_rule_foldl_chem_link (lh : LinkHunt) (bm d : ℚ) (an rn crn : String)
    (res cres : Residue) (alt : Option Char) (q c : CRAIdx) :
    ∀ (rules : List ChemLink) (acc : Match) (l : ChemLink),
      (rules.foldl (lh.try_rule bm d an rn crn res cres alt q c) acc).chem_link = some l →
      acc.chem_link = some l ∨
        (l ∈ rules ∧ ¬ ((link_first_bond_value l * bm) ^ 2 < d)) := by
  intro rules
  induction rules with
  | nil => intro acc l h; exact Or.inl h
  | cons x t ih =>
    intro acc l h
    rw [List.foldl_cons] at h
    rcases ih _ l h with h1 | h2
    · rcases try_rule_step_cases lh bm d an rn crn res cres alt q c acc x with hs | ⟨hacc, b, hs⟩
      · rw [hs] at h1
        exact Or.inl h1
      · rw [hs] at h1
        have hxl : x = l := Option.some.inj h1
        subst hxl
        exact Or.inr ⟨List.mem_cons_self x t,
          accepts_rule_bound lh bm d an rn crn res cres alt x hacc⟩
    · exact Or.inr ⟨List.mem_cons_of_mem x h2.1, h2.2⟩

theorem try_rule_foldl_pair (lh : LinkHunt) (bm d : ℚ) (an rn crn : String)
    (res cres : Residue) (alt : Option Char) (q c : CRAIdx) :
    ∀ (rules : List ChemLink) (acc : Match),
      (acc.chem_link = none ∨
        (acc.cra1 = q ∧ acc.cra2 = c) ∨ (acc.cra1 = c ∧ acc.cra2 = q)) →
      ((rules.foldl (lh.try_rule bm d an rn crn res cres alt q c) acc).chem_link = none ∨
        ((rules.foldl (lh.try_rule bm d an rn crn res cres alt q c) acc).cra1 = q ∧
          (rules.foldl (lh.try_rule bm d an rn crn res cres alt q c) acc).cra2 = c) ∨
        ((rules.foldl (lh.try_rule bm d an rn crn res cres alt q c) acc).cra1 = c ∧
          (rules.foldl (lh.try_rule bm d an rn crn res cres alt q c) acc).cra2 = q)) := by
  intro rules
  induction rules with
  | nil => intro acc hacc; exact hacc
  | cons x t ih =>
    intro acc hacc
    rw [List.foldl_cons]
    refine ih _ ?_
    rcases try_rule_step_cases lh bm d an rn crn res cres alt q c acc x with hs | ⟨-, b, hs⟩
    · rw [hs]; exact hacc
    · rw [hs]
      cases b
      · exact Or.inr (Or.inr ⟨rfl, rfl⟩)
      · exact Or.inr (Or.inl ⟨rfl, rfl⟩)

theorem equal_range_mem (lh : LinkHunt) (key : String × String) (l : ChemLink)
    (h : l ∈ lh.equal_range key) : ∃ k, (k, l) ∈ lh.links := by
  unfold LinkHunt.equal_range at h
  rcases List.mem_map.mp h with ⟨kl, hkl, hl⟩
  refine ⟨kl.1, ?_⟩
  rw [← hl]
  exact (List.mem_filter.mp hkl).1

theorem visit_some_spec (lh : LinkHunt) (model : Model) (bm rm : ℚ)
    (n_ch n_res n_atom : ℕ) (res : Residue) (atom : Atom) (m : Mark) (d : ℚ) (mt : Match)
    (hv : lh.visit model bm rm n_ch n_res n_atom res atom m d = some mt) :
    mt.same_asu = (m.image_idx == 0) ∧
    mt.bond_length_sq = d ∧
    ((mt.cra1 = (⟨n_ch, n_res, n_atom⟩ : CRAIdx) ∧
        mt.cra2 = (⟨m.chain_idx, m.residue_idx, m.atom_idx⟩ : CRAIdx)) ∨
      (mt.cra1 = (⟨m.chain_idx, m.residue_idx, m.atom_idx⟩ : CRAIdx) ∧
        mt.cra2 = (⟨n_ch, n_res, n_atom⟩ : CRAIdx))) ∧
    admit_mark m n_ch n_res n_atom d = true ∧
    (∀ link, mt.chem_link = some link →
      (∃ k, (k, link) ∈ lh.links) ∧ ¬ ((link_first_bond_value link * bm) ^ 2 < d)) ∧
    (mt.chem_link = none →
      ∃ cra, m.to_cra model = some cra ∧
        ¬ (((atom.element.covalent_r + cra.2.2.element.covalent_r) * rm) ^ 2 < d)) := by
  unfold LinkHunt.visit at hv
  split at hv
  case isFalse => exact absurd hv (by simp)
  case isTrue hadm =>
  dsimp only at hv
  split at hv
  case h_1 => exact absurd hv (by simp)
  case h_2 cra hcra =>
  split at hv
  case h_1 l hl =>
    have hmt := Option.some.inj hv
    subst hmt
    refine ⟨rfl, rfl, ?_, hadm, ?_, ?_⟩
    · have hpair := try_rule_foldl_pair lh bm d atom.name res.name cra.2.1.name res cra.2.1
        (match atom.altloc with | some ch => some ch | none => cra.2.2.altloc)
        ⟨n_ch, n_res, n_atom⟩ ⟨m.chain_idx, m.residue_idx, m.atom_idx⟩
        (lh.equal_range (lexicographic_str atom.name cra.2.2.name)) {} (Or.inl rfl)
      rcases hpair with hnone | hp | hp
      · rw [hl] at hnone; cases hnone
      · exact Or.inl hp
      · exact Or.inr hp
    · intro link hlink
      have : l = link := by
        have h2 : some l = some link := by rw [← hl]; exact hlink
        exact Option.some.inj h2
      subst this
      have hcl := try_rule_foldl_chem_link lh bm d atom.name res.name cra.2.1.name res cra.2.1
        (match atom.altloc with | some ch => some ch | none => cra.2.2.altloc)
        ⟨n_ch, n_res, n_atom⟩ ⟨m.chain_idx, m.residue_idx, m.atom_idx⟩
        (lh.equal_range (lexicographic_str atom.name cra.2.2.name)) {} l hl
      rcases hcl with hcl | ⟨hmem, hbound⟩
      · exact absurd hcl (by simp)
      · exact ⟨equal_range_mem lh _ l hmem, hbound⟩
    · intro hnone
      rw [hl] at hnone
      cases hnone
  case h_2 hl =>
    split at hv
    case isTrue => exact absurd hv (by simp)
    case isFalse hheu =>
      have hmt := Option.some.inj hv
      subst hmt
      refine ⟨rfl, rfl, Or.inr ⟨rfl, rfl⟩, hadm, ?_, ?_⟩
      · intro link hlink
        rw [hl] at hlink
        cases hlink
      · intro _
        exact ⟨cra, hcra, hheu⟩

end Gemmi

namespace Gemmi

theorem visit_pred_core (lh : LinkHunt) (model : Model) (bm rm : ℚ)
    (slot : (ℕ × ℕ × ℕ) × Residue × Atom) (mk : Mark) (d : ℚ) (mt : Match) (p q : CRAIdx)
    (hv : lh.visit model bm rm slot.1.1 slot.1.2.1 slot.1.2.2 slot.2.1 slot.2.2 mk d = some mt)
    (hpred : (mt.same_asu && unordered_pair_is mt p q) = true) :
    mk.image_idx = 0 ∧
    ((slot.1 = p.triple ∧ (mk.chain_idx, mk.residue_idx, mk.atom_idx) = q.triple ∧
        triple_lt p.triple q.triple) ∨
      (slot.1 = q.triple ∧ (mk.chain_idx, mk.residue_idx, mk.atom_idx) = p.triple ∧
        triple_lt q.triple p.triple)) := by
  obtain ⟨hsame, -, hpair, hadm, -, -⟩ :=
    visit_some_spec lh model bm rm slot.1.1 slot.1.2.1 slot.1.2.2 slot.2.1 slot.2.2 mk d mt hv
  rw [Bool.and_eq_true] at hpred
  obtain ⟨hasu, hup⟩ := hpred
  have himg : mk.image_idx = 0 := by
    rw [hasu] at hsame
    have := hsame.symm
    simpa using this
  refine ⟨himg, ?_⟩
  unfold admit_mark at hadm
  simp only [Bool.and_eq_true, Bool.not_eq_true', and_assoc] at hadm
  obtain ⟨hrej1, hdup, -⟩ := hadm
  have hnlt : ¬ triple_lt (mk.chain_idx, mk.residue_idx, mk.atom_idx)
      (slot.1.1, slot.1.2.1, slot.1.2.2) := by
    intro hl
    rw [← mark_idx_lt_iff] at hl
    rw [hdup] at hl
    cases hl
  have hne : (mk.chain_idx, mk.residue_idx, mk.atom_idx) ≠ (slot.1.1, slot.1.2.1, slot.1.2.2) := by
    intro he
    have : reject_same_residue mk slot.1.1 slot.1.2.1 = true := by
      unfold reject_same_residue
      simp only [Prod.mk.injEq] at he
      simp [himg, he.1, he.2.1]
    rw [hrej1] at this
    cases this
  have hstrict : triple_lt (slot.1.1, slot.1.2.1, slot.1.2.2)
      (mk.chain_idx, mk.residue_idx, mk.atom_idx) := by
    by_contra hns
    exact hne (triple_lt_total _ _ hnlt hns)
  have heta : (slot.1.1, slot.1.2.1, slot.1.2.2) = slot.1 := rfl
  rw [heta] at hstrict
  unfold unordered_pair_is at hup
  rw [Bool.or_eq_true, Bool.and_eq_true, Bool.and_eq_true] at hup
  simp only [beq_iff_eq] at hup
  have hq : ((⟨slot.1.1, slot.1.2.1, slot.1.2.2⟩ : CRAIdx) = p ∧
      (⟨mk.chain_idx, mk.residue_idx, mk.atom_idx⟩ : CRAIdx) = q) ∨
      ((⟨slot.1.1, slot.1.2.1, slot.1.2.2⟩ : CRAIdx) = q ∧
        (⟨mk.chain_idx, mk.residue_idx, mk.atom_idx⟩ : CRAIdx) = p) := by
    rcases hpair with ⟨h1, h2⟩ | ⟨h1, h2⟩
    · rcases hup with ⟨h3, h4⟩ | ⟨h3, h4⟩
      · exact Or.inl ⟨h1 ▸ h3, h2 ▸ h4⟩
      · exact Or.inr ⟨h1 ▸ h3, h2 ▸ h4⟩
    · rcases hup with ⟨h3, h4⟩ | ⟨h3, h4⟩
      · exact Or.inr ⟨h2 ▸ h4, h1 ▸ h3⟩
      · exact Or.inl ⟨h2 ▸ h4, h1 ▸ h3⟩
  have htr : ∀ x : CRAIdx, ((⟨slot.1.1, slot.1.2.1, slot.1.2.2⟩ : CRAIdx) = x) →
      slot.1 = x.triple := by
    intro x hx
    rw [← hx]
    rfl
  have htr2 : ∀ x : CRAIdx, ((⟨mk.chain_idx, mk.residue_idx, mk.atom_idx⟩ : CRAIdx) = x) →
      (mk.chain_idx, mk.residue_idx, mk.atom_idx) = x.triple := by
    intro x hx
    rw [← hx]
    rfl
  rcases hq with ⟨h1, h2⟩ | ⟨h1, h2⟩
  · refine Or.inl ⟨htr p h1, htr2 q h2, ?_⟩
    rw [← htr p h1, ← htr2 q h2]
    exact hstrict
  · refine Or.inr ⟨htr q h1, htr2 p h2, ?_⟩
    rw [← htr q h1, ← htr2 p h2]
    exact hstrict

end Gemmi

namespace Gemmi

theorem find_links_pair_count_of_lt (lh : LinkHunt) (model : Model)
    (images : List (Position → Position)) (bm rm : ℚ) (p q : CRAIdx)
    (hlt : triple_lt p.triple q.triple) :
    (lh.find_links_model model images bm rm).countP
      (fun mt => mt.same_asu && unordered_pair_is mt p q) ≤ 1 := by
  unfold LinkHunt.find_links_model
  dsimp only
  rw [List.countP_map]
  have hcongr : ((fun mt : Match => mt.same_asu && unordered_pair_is mt p q) ∘
      (fun mt => { mt with conn := find_connection_by_cra model mt.cra1 mt.cra2 })) =
      (fun mt : Match => mt.same_asu && unordered_pair_is mt p q) := by
    funext mt
    rfl
  rw [hcongr, List.countP_flatMap]
  refine map_sum_le_one _ _ (fun slot => slot.1 == p.triple) ?_ ?_
    (all_slots_key_countP model p.triple)
  · intro slot _ hfalse
    simp only [Function.comp_apply]
    rw [List.countP_eq_zero]
    intro mt hmt hpred
    split at hmt
    next => exact absurd hmt (by simp)
    next r hlook =>
      rcases List.mem_filterMap.mp hmt with ⟨md, _, hv⟩
      have hcore := visit_pred_core lh model bm rm slot md.1 md.2 mt p q hv hpred
      rcases hcore.2 with ⟨hslot, -, -⟩ | ⟨-, -, hlt2⟩
      · simp only [beq_eq_false_iff_ne] at hfalse
        exact hfalse hslot
      · exact triple_lt_asymm _ _ hlt hlt2
  · intro slot _
    simp only [Function.comp_apply]
    split
    next => simp
    next r hlook =>
      refine le_trans (countP_filterMap_le _ _ _
        (fun md : Mark × ℚ => md.1.image_idx == 0 &&
          ((md.1.chain_idx, md.1.residue_idx, md.1.atom_idx) == q.triple)) ?_) ?_
      · intro md _ mt hv hpred
        have hcore := visit_pred_core lh model bm rm slot md.1 md.2 mt p q hv hpred
        rcases hcore.2 with ⟨-, hmark, -⟩ | ⟨-, -, hlt2⟩
        · simp [hcore.1, hmark]
        · exact (triple_lt_asymm _ _ hlt hlt2).elim
      · unfold for_each
        refine le_trans (countP_filterMap_le _ _ _
          (fun mk : Mark => mk.image_idx == 0 &&
            ((mk.chain_idx, mk.residue_idx, mk.atom_idx) == q.triple)) ?_)
          (populate_image0_countP model images (lh.sc_radius bm) q.triple)
        intro mk _ md hf hpredmd
        dsimp only at hf
        split at hf
        · have hmd := Option.some.inj hf
          rw [← hmd] at hpredmd
          exact hpredmd
        · cases hf

/-- C1 (corrected): for a structure with at least one model the search
succeeds, and for every unordered pair of atom references its result list
holds at most one same-asymmetric-unit match joining that pair: a candidate
whose index triple is lexicographically below the query's is rejected, so
each unordered pair is scanned from one side only.  (The claim's stronger
form without the same-ASU restriction fails: a pair reached both directly
and through a nonzero symmetry image is reported once per image, see the
counterexample.) -/
theorem C1_same_asu_pair_unique (lh : LinkHunt) (model : Model) (rest : List Model)
    (images : List (Position → Position)) (bm rm : ℚ) (p q : CRAIdx) :
    ∃ results : List Match,
      lh.find_possible_links ⟨model :: rest, images⟩ bm rm = Except.ok results ∧
      results.countP (fun mt => mt.same_asu && unordered_pair_is mt p q) ≤ 1 := by
  refine ⟨lh.find_links_model model images bm rm, rfl, ?_⟩
  by_cases h1 : triple_lt p.triple q.triple
  · exact find_links_pair_count_of_lt lh model images bm rm p q h1
  by_cases h2 : triple_lt q.triple p.triple
  · have hsymm : (fun mt : Match => mt.same_asu && unordered_pair_is mt p q) =
        (fun mt : Match => mt.same_asu && unordered_pair_is mt q p) := by
      funext mt
      rw [unordered_pair_is_symm]
    rw [hsymm]
    exact find_links_pair_count_of_lt lh model images bm rm q p h2
  · have hpq : p = q := CRAIdx_triple_inj p q (triple_lt_total _ _ h1 h2)
    subst hpq
    have hzero : (lh.find_links_model model images bm rm).countP
        (fun mt => mt.same_asu && unordered_pair_is mt p p) = 0 := by
      rw [List.countP_eq_zero]
      intro mt hmt hpred
      unfold LinkHunt.find_links_model at hmt
      dsimp only at hmt
      rcases List.mem_map.mp hmt with ⟨mt0, hmt0, hconn⟩
      have hpred0 : (mt0.same_asu && unordered_pair_is mt0 p p) = true := by
        rw [← hconn] at hpred
        exact hpred
      rcases List.mem_flatMap.mp hmt0 with ⟨slot, _, hin⟩
      split at hin
      next => exact absurd hin (by simp)
      next r hlook =>
        rcases List.mem_filterMap.mp hin with ⟨md, _, hv⟩
        have hcore := visit_pred_core lh model bm rm slot md.1 md.2 mt0 p p hv hpred0
        rcases hcore.2 with ⟨-, -, hlt2⟩ | ⟨-, -, hlt2⟩ <;>
          exact triple_lt_asymm _ _ hlt2 hlt2
    rw [hzero]
    omega

/-- C1 counterexample: in the concrete pair scenario the engine emits two
match records for the same unordered atom pair, one inside the asymmetric
unit and one through the lattice-translation image, refuting "at most one
MatchRecord per unordered pair". -/
theorem C1_counterexample :
    Except.map (fun results : List Match =>
        results.countP (fun mt => unordered_pair_is mt ⟨0, 0, 0⟩ ⟨0, 1, 0⟩))
      (cexLH.find_possible_links cexSt 1 1) = Except.ok 2 := by
  with_unfolding_all decide

end Gemmi

namespace Gemmi

theorem mem_of_mem_enum {α : Type} {l : List α} {x : ℕ × α} (h : x ∈ l.enum) : x.2 ∈ l := by
  rw [List.mem_enum_iff_getElem?] at h
  exact List.getElem?_mem h

theorem mem_for_each (marks : List Mark) (pos : Position) (alt : Option Char) (r : ℚ)
    (md : Mark × ℚ) (h : md ∈ for_each marks pos alt r) :
    md.1 ∈ marks ∧ md.2 = distSq pos md.1.pos := by
  unfold for_each at h
  rcases List.mem_filterMap.mp h with ⟨mk, hmk, hf⟩
  dsimp only at hf
  split at hf
  · have hmd := Option.some.inj hf
    rw [← hmd]
    exact ⟨hmk, rfl⟩
  · cases hf

theorem mem_find_links_model (lh : LinkHunt) (model : Model)
    (images : List (Position → Position)) (bm rm : ℚ) (mt : Match)
    (h : mt ∈ lh.find_links_model model images bm rm) :
    ∃ slot ∈ all_slots model, ∃ mk ∈ populate model images (lh.sc_radius bm), ∃ mt0 : Match,
      lh.visit model bm rm slot.1.1 slot.1.2.1 slot.1.2.2 slot.2.1 slot.2.2 mk
        (distSq slot.2.2.pos mk.pos) = some mt0 ∧
      mt = { mt0 with conn := find_connection_by_cra model mt0.cra1 mt0.cra2 } := by
  unfold LinkHunt.find_links_model at h
  dsimp only at h
  rcases List.mem_map.mp h with ⟨mt0, hmt0, hconn⟩
  rcases List.mem_flatMap.mp hmt0 with ⟨slot, hslot, hin⟩
  split at hin
  next => exact absurd hin (by simp)
  next r hlook =>
    rcases List.mem_filterMap.mp hin with ⟨md, hmd, hv⟩
    have hfe := mem_for_each _ _ _ _ md hmd
    refine ⟨slot, hslot, md.1, hfe.1, mt0, ?_, hconn.symm⟩
    rw [← hfe.2]
    exact hv

theorem all_slots_mem (model : Model) (slot : (ℕ × ℕ × ℕ) × Residue × Atom)
    (h : slot ∈ all_slots model) :
    ∃ ch ∈ model.chains, slot.2.1 ∈ ch.residues ∧ slot.2.2 ∈ slot.2.1.atoms := by
  unfold all_slots at h
  rcases List.mem_flatMap.mp h with ⟨cp, hcp, h2⟩
  rcases List.mem_flatMap.mp h2 with ⟨rp, hrp, h3⟩
  rcases List.mem_map.mp h3 with ⟨ap, hap, hs⟩
  refine ⟨cp.2, mem_of_mem_enum hcp, ?_, ?_⟩
  · rw [← hs]
    exact mem_of_mem_enum hrp
  · rw [← hs]
    exact mem_of_mem_enum hap

theorem to_cra_mem (model : Model) (mk : Mark) (cra : Chain × Residue × Atom)
    (h : mk.to_cra model = some cra) :
    cra.1 ∈ model.chains ∧ cra.2.1 ∈ cra.1.residues ∧ cra.2.2 ∈ cra.2.1.atoms := by
  unfold Mark.to_cra at h
  cases hc : model.chains.get? mk.chain_idx with
  | none => rw [hc] at h; cases h
  | some chain =>
    rw [hc] at h
    simp only [Option.bind_eq_bind, Option.some_bind] at h
    cases hr : chain.residues.get? mk.residue_idx with
    | none => rw [hr] at h; cases h
    | some res =>
      rw [hr] at h
      simp only [Option.bind_eq_bind, Option.some_bind] at h
      cases ha : res.atoms.get? mk.atom_idx with
      | none => rw [ha] at h; cases h
      | some a =>
        rw [ha] at h
        simp only [Option.bind_eq_bind, Option.some_bind] at h
        have hcra := Option.some.inj h
        rw [← hcra]
        exact ⟨List.get?_mem hc, List.get?_mem hr, List.get?_mem ha⟩

theorem sqrt_le_of_sq_le {x : ℚ} {B : ℝ} (h : (x : ℝ) ≤ B ^ 2) (hB : 0 ≤ B) :
    Real.sqrt (x : ℝ) ≤ B := by
  calc Real.sqrt (x : ℝ) ≤ Real.sqrt (B ^ 2) := Real.sqrt_le_sqrt h
  _ = B := Real.sqrt_sq hB

end Gemmi

namespace Gemmi

/-- C2 (confirmed): every match returned by find_possible_links has a
non-negative bond length, the square root of the exact squared distance
between the query atom's position and the candidate mark's (possibly
symmetry-transformed) position, its endpoints reference exactly those two
atoms, and the length is bounded by the accepted rule's first-bond length
scaled by bond_margin when a dictionary rule matched, and by the covalent
radius sum scaled by radius_margin otherwise (given non-negative margins,
dictionary bond lengths and covalent radii). -/
theorem C2_bond_length_bounds (lh : LinkHunt) (st : Structure) (bm rm : ℚ)
    (results : List Match) (mt : Match)
    (hok : lh.find_possible_links st bm rm = Except.ok results)
    (hmem : mt ∈ results)
    (hbm : 0 ≤ bm) (hrm : 0 ≤ rm)
    (hvals : ∀ kl ∈ lh.links, 0 ≤ link_first_bond_value kl.2)
    (hcov : ∀ mdl ∈ st.models, ∀ ch ∈ mdl.chains, ∀ re ∈ ch.residues, ∀ a ∈ re.atoms,
      0 ≤ a.element.covalent_r) :
    0 ≤ Real.sqrt ((mt.bond_length_sq : ℚ) : ℝ) ∧
    ∃ model ∈ st.models, ∃ slot ∈ all_slots model,
      ∃ mk ∈ populate model st.images (lh.sc_radius bm),
        mt.bond_length_sq = distSq slot.2.2.pos mk.pos ∧
        ((mt.cra1 = (⟨slot.1.1, slot.1.2.1, slot.1.2.2⟩ : CRAIdx) ∧
            mt.cra2 = (⟨mk.chain_idx, mk.residue_idx, mk.atom_idx⟩ : CRAIdx)) ∨
          (mt.cra1 = (⟨mk.chain_idx, mk.residue_idx, mk.atom_idx⟩ : CRAIdx) ∧
            mt.cra2 = (⟨slot.1.1, slot.1.2.1, slot.1.2.2⟩ : CRAIdx))) ∧
        (∀ link, mt.chem_link = some link →
          Real.sqrt ((mt.bond_length_sq : ℚ) : ℝ) ≤
            ((link_first_bond_value link * bm : ℚ) : ℝ)) ∧
        (mt.chem_link = none →
          ∃ cra, mk.to_cra model = some cra ∧
            Real.sqrt ((mt.bond_length_sq : ℚ) : ℝ) ≤
              (((slot.2.2.element.covalent_r + cra.2.2.element.covalent_r) * rm : ℚ) : ℝ)) := by
  cases hst : st.models with
  | nil =>
    unfold LinkHunt.find_possible_links at hok
    rw [hst] at hok
    cases hok
  | cons model rest =>
    have hres : results = lh.find_links_model model st.images bm rm := by
      unfold LinkHunt.find_possible_links at hok
      rw [hst] at hok
      exact (Except.ok.inj hok).symm
    subst hres
    rcases mem_find_links_model lh model st.images bm rm mt hmem with
      ⟨slot, hslot, mk, hmk, mt0, hv, hconn⟩
    obtain ⟨-, hbls, hpair, -, hdict, hheu⟩ :=
      visit_some_spec lh model bm rm slot.1.1 slot.1.2.1 slot.1.2.2 slot.2.1 slot.2.2 mk
        (distSq slot.2.2.pos mk.pos) mt0 hv
    subst hconn
    have hmodel : model ∈ model :: rest := List.mem_cons_self _ _
    have hmodelst : model ∈ st.models := by
      rw [hst]
      exact List.mem_cons_self _ _
    refine ⟨Real.sqrt_nonneg _, model, hmodel, slot, hslot, mk, hmk, hbls, hpair, ?_, ?_⟩
    · intro link hlink
      obtain ⟨⟨k, hk⟩, hbound⟩ := hdict link hlink
      have hfbv : 0 ≤ link_first_bond_value link := hvals (k, link) hk
      have hB : (0 : ℝ) ≤ ((link_first_bond_value link * bm : ℚ) : ℝ) :=
        Rat.cast_nonneg.mpr (mul_nonneg hfbv hbm)
      refine sqrt_le_of_sq_le ?_ hB
      rw [hbls]
      calc ((distSq slot.2.2.pos mk.pos : ℚ) : ℝ)
          ≤ (((link_first_bond_value link * bm) ^ 2 : ℚ) : ℝ) :=
            Rat.cast_le.mpr (not_lt.mp hbound)
        _ = ((link_first_bond_value link * bm : ℚ) : ℝ) ^ 2 := Rat.cast_pow _ _
    · intro hnone
      obtain ⟨cra, hcra, hbound⟩ := hheu hnone
      refine ⟨cra, hcra, ?_⟩
      obtain ⟨ch, hch, hres2, hatom⟩ := all_slots_mem model slot hslot
      have hr1 : 0 ≤ slot.2.2.element.covalent_r :=
        hcov model hmodelst ch hch slot.2.1 hres2 slot.2.2 hatom
      obtain ⟨hch2, hres3, hatom2⟩ := to_cra_mem model mk cra hcra
      have hr2 : 0 ≤ cra.2.2.element.covalent_r :=
        hcov model hmodelst cra.1 hch2 cra.2.1 hres3 cra.2.2 hatom2
      have hB : (0 : ℝ) ≤
          (((slot.2.2.element.covalent_r + cra.2.2.element.covalent_r) * rm : ℚ) : ℝ) :=
        Rat.cast_nonneg.mpr (mul_nonneg (add_nonneg hr1 hr2) hrm)
      refine sqrt_le_of_sq_le ?_ hB
      rw [hbls]
      calc ((distSq slot.2.2.pos mk.pos : ℚ) : ℝ)
          ≤ ((((slot.2.2.element.covalent_r + cra.2.2.element.covalent_r) * rm) ^ 2 : ℚ) : ℝ) :=
            Rat.cast_le.mpr (not_lt.mp hbound)
        _ = (((slot.2.2.element.covalent_r + cra.2.2.element.covalent_r) * rm : ℚ) : ℝ) ^ 2 :=
            Rat.cast_pow _ _

end Gemmi

namespace Gemmi

/-- Witness for C2: the concrete pair scenario satisfies every hypothesis of
the bound theorem, and the theorem's conclusion holds at its first emitted
match. -/
theorem C2_bond_length_bounds_witness :
    (cexLH.find_possible_links cexSt 1 1 = Except.ok [cexMatch1, cexMatch2]) ∧
    (cexMatch1 ∈ [cexMatch1, cexMatch2]) ∧
    ((0 : ℚ) ≤ 1) ∧
    (∀ kl ∈ cexLH.links, 0 ≤ link_first_bond_value kl.2) ∧
    (∀ mdl ∈ cexSt.models, ∀ ch ∈ mdl.chains, ∀ re ∈ ch.residues, ∀ a ∈ re.atoms,
      0 ≤ a.element.covalent_r) ∧
    (0 ≤ Real.sqrt ((cexMatch1.bond_length_sq : ℚ) : ℝ) ∧
      ∃ model ∈ cexSt.models, ∃ slot ∈ all_slots model,
        ∃ mk ∈ populate model cexSt.images (cexLH.sc_radius 1),
          cexMatch1.bond_length_sq = distSq slot.2.2.pos mk.pos ∧
          ((cexMatch1.cra1 = (⟨slot.1.1, slot.1.2.1, slot.1.2.2⟩ : CRAIdx) ∧
              cexMatch1.cra2 = (⟨mk.chain_idx, mk.residue_idx, mk.atom_idx⟩ : CRAIdx)) ∨
            (cexMatch1.cra1 = (⟨mk.chain_idx, mk.residue_idx, mk.atom_idx⟩ : CRAIdx) ∧
              cexMatch1.cra2 = (⟨slot.1.1, slot.1.2.1, slot.1.2.2⟩ : CRAIdx))) ∧
          (∀ link, cexMatch1.chem_link = some link →
            Real.sqrt ((cexMatch1.bond_length_sq : ℚ) : ℝ) ≤
              ((link_first_bond_value link * 1 : ℚ) : ℝ)) ∧
          (cexMatch1.chem_link = none →
            ∃ cra, mk.to_cra model = some cra ∧
              Real.sqrt ((cexMatch1.bond_length_sq : ℚ) : ℝ) ≤
                (((slot.2.2.element.covalent_r + cra.2.2.element.covalent_r) * 1 : ℚ) : ℝ))) := by
  have hok : cexLH.find_possible_links cexSt 1 1 = Except.ok [cexMatch1, cexMatch2] := by
    with_unfolding_all decide
  have hbm : (0 : ℚ) ≤ 1 := by with_unfolding_all decide
  have hvals : ∀ kl ∈ cexLH.links, 0 ≤ link_first_bond_value kl.2 := by
    with_unfolding_all decide
  have hcov : ∀ mdl ∈ cexSt.models, ∀ ch ∈ mdl.chains, ∀ re ∈ ch.residues, ∀ a ∈ re.atoms,
      0 ≤ a.element.covalent_r := by
    with_unfolding_all decide
  exact ⟨hok, List.mem_cons_self _ _, hbm, hvals, hcov,
    C2_bond_length_bounds cexLH cexSt 1 1 [cexMatch1, cexMatch2] cexMatch1 hok
      (List.mem_cons_self _ _) hbm hbm hvals hcov⟩

end Gemmi

namespace Gemmi

/-- Witness for C8: the retention characterization instantiated at the
concrete SG-ZN dictionary and rule. -/
theorem C8_rule_retention_witness :
    ((index_chem_links znML).links =
      ((znML.links.map Prod.snd).filter link_retained).map (fun l => (link_key l, l))) ∧
    (link_retained znLink = true ↔
      (znLink.rt.bonds ≠ [] ∧
        ¬(znLink.side1.comp = "" ∧ znLink.side2.comp = "" ∧
          (znLink.side1.group = ChemLinkGroup.Null ∨ znLink.side2.group = ChemLinkGroup.Null ∨
            znLink.id ∈ blacklist)))) :=
  C8_rule_retention znML znLink

end Gemmi
